import Mathlib

/-!
Verification of the benchmark execution engine of the db-benchmark-suite repository.

Shallow embedding conventions used throughout:

* Go `time.Duration` is an `int64` count of nanoseconds; we model duration values
  as `ℤ`.  The claims under consideration never exercise 64-bit overflow (all
  sums stay far below `2 ^ 63`), so no modular reduction is applied.
* Go `float64` quantities that only enter the claims through order comparisons
  or exact ratios (elapsed seconds, throughput, the percentile argument `p`)
  are modelled as `ℚ`.  Where a claim depends on a concrete `float64`
  computation (the percentile index `int(float64(len)*p)`), the rational model
  agrees with the IEEE-754 evaluation at every input the claims mention; this
  is noted at the definition.
* Effects are made explicit: the insert target is an oracle `fails : ℕ → Bool`
  telling which generated batch `InsertBatch` rejects, the query target is an
  oracle `resp : ℕ → Option ℤ` giving either an error or an elapsed time for
  each measured call, and the readiness probe is an oracle `probe : ℕ → Bool`.
-/

namespace DbBench

/-! ### Stats module (package benchmark, duration statistics source file)

Direct translations of `AvgDuration`, `MinDuration`, `MaxDuration` and
`Percentile`. -/

/-- Translation of `AvgDuration`: sum of the durations divided by their number
using Go's `int64` division (truncation toward zero, hence `Int.tdiv`);
`0` for an empty slice. -/
def AvgDuration (durations : List ℤ) : ℤ :=
  if durations.length = 0 then 0
  else (durations.foldl (· + ·) 0).tdiv durations.length

/-- Translation of `MinDuration`: `result := durations[0]`, then a linear scan
replacing `result` whenever `d < result`; `0` for an empty slice. -/
def MinDuration (durations : List ℤ) : ℤ :=
  match durations with
  | [] => 0
  | d :: ds => ds.foldl (fun result x => if x < result then x else result) d

/-- Translation of `MaxDuration`: `result := durations[0]`, then a linear scan
replacing `result` whenever `d > result`; `0` for an empty slice. -/
def MaxDuration (durations : List ℤ) : ℤ :=
  match durations with
  | [] => 0
  | d :: ds => ds.foldl (fun result x => if x > result then x else result) d

/-- The index selected by `Percentile`: Go computes
`index := int(float64(len(sorted)) * p)` and clamps `index >= len` to `len-1`.
For `p ≥ 0` the float-to-int conversion truncates toward zero, i.e. takes the
floor.  We model the product over `ℚ`; at every `(len, p)` pair appearing in
the claims (`p ∈ {1/2, 19/20, 99/100, 1}`, `len ≤ 100`) the IEEE-754 `float64`
product is exactly the rational product rounded to a representable value whose
truncation coincides with `⌊len * p⌋`, so the model agrees with the compiled
code there.  (For `p < 0` Go would produce a negative index and panic; the
claims only concern `p ≥ 0`.) -/
def percentileIndex (n : ℕ) (p : ℚ) : ℕ :=
  let index := (Int.floor ((n : ℚ) * p)).toNat
  if index ≥ n then n - 1 else index

/-- Translation of `Percentile`: `0` for an empty slice, otherwise copy the
input, sort the copy ascending (`sort.Slice` with `<`; on integer values the
result is the unique `≤`-sorted permutation, modelled by `insertionSort`), and
return the element at the clamped index. -/
def Percentile (durations : List ℤ) (p : ℚ) : ℤ :=
  if durations.length = 0 then 0
  else
    (List.insertionSort (· ≤ ·) durations).getD (percentileIndex durations.length p) 0

/-- Call-level view of `Percentile`, making the frame effect on the caller's
slice explicit.  The Go implementation allocates `sorted := make([]time.Duration,
len(durations))`, runs `copy(sorted, durations)` and passes only `sorted` to
`sort.Slice`; the `durations` slice itself is never written.  The second
component is therefore the caller's slice as observable after the call: the
unmodified input. -/
def PercentileCall (durations : List ℤ) (p : ℚ) : ℤ × List ℤ :=
  if durations.length = 0 then (0, durations)
  else
    ((List.insertionSort (· ≤ ·) durations).getD (percentileIndex durations.length p) 0,
     durations)

/-- Modelled from the spec: "sort a copy of the input, then select index
`floor(len(sorted) * p)`, clamped to `len(sorted)-1`"; stated with `mergeSort`
and `min` so that it is an independent rendering of the spec sentence, to be
compared with the source translation `Percentile`. -/
def percentileSpec (durations : List ℤ) (p : ℚ) : ℤ :=
  if durations = [] then 0
  else
    (durations.mergeSort (fun a b => decide (a ≤ b))).getD
      (min (Int.floor ((durations.length : ℚ) * p)).toNat (durations.length - 1)) 0

/-- The durations `1ms, 2ms, …, 100ms` (in nanoseconds) used by the spec's
percentile examples. -/
def msRange100 : List ℤ := (List.range 100).map (fun (k : ℕ) => ((k : ℤ) + 1) * 1000000)

/-! ### Event generator (package generator)

`Generator.Generate` runs `for g.current < g.totalEvents`, each iteration
emitting a batch of `size = min(batchSize, totalEvents - current)` events and
advancing `current` by `size`. -/

/-- Sizes of the batches emitted by `Generator.Generate`, in emission order.
For `batchSize = 0` and a positive total the Go loop would never terminate;
the `batchSize = 0` guard below only makes the function total, and every
theorem about it assumes `1 ≤ batchSize`. -/
def generateSizes (total batchSize : ℕ) : List ℕ :=
  if h : total = 0 ∨ batchSize = 0 then []
  else
    min batchSize total :: generateSizes (total - min batchSize total) batchSize
termination_by total
decreasing_by
  have h1 : 1 ≤ total := Nat.one_le_iff_ne_zero.mpr (fun hc => h (Or.inl hc))
  have h2 : 1 ≤ batchSize := Nat.one_le_iff_ne_zero.mpr (fun hc => h (Or.inr hc))
  exact Nat.sub_lt h1 (le_min h2 h1)

/-! ### Event IDs (package generator, `Generator.generateEvent`)

`generateEvent` builds the event ID as
`fmt.Sprintf("evt_%d_%d", createdAt.UnixNano(), g.rand.Int63())`.
The creation timestamp comes from the wall clock and the second component from
the generator's PRNG; we model one generation run by the list of
`(UnixNano, Int63)` pairs those two sources hand to `generateEvent`. -/

/-- Decimal digit character, as printed by `fmt` for the verb `%d`. -/
def digitChar (d : ℕ) : Char := Char.ofNat (48 + d)

/-- Decimal rendering of a natural number, most significant digit first,
exactly the digit sequence `fmt.Sprintf("%d", n)` prints. -/
def natDecimal (n : ℕ) : List Char :=
  if h : n < 10 then [digitChar n]
  else natDecimal (n / 10) ++ [digitChar (n % 10)]
termination_by n
decreasing_by
  exact Nat.div_lt_self (by omega) (by omega)

/-- Decimal rendering of an integer: a leading minus sign for negative values,
as `fmt.Sprintf("%d", z)` prints for `int64`. -/
def intDecimal (z : ℤ) : List Char :=
  if z < 0 then '-' :: natDecimal z.natAbs else natDecimal z.toNat

/-- Value of a digit string, used to invert `natDecimal`. -/
def digitsVal (l : List Char) : ℕ :=
  l.foldl (fun acc c => 10 * acc + (c.toNat - 48)) 0

/-- The ID string `fmt.Sprintf("evt_%d_%d", unixNano, r)` built by
`generateEvent`, where `unixNano` is `createdAt.UnixNano()` and `r` is the
`g.rand.Int63()` draw. -/
def eventID (unixNano r : ℤ) : String :=
  ⟨'e' :: 'v' :: 't' :: '_' :: (intDecimal unixNano ++ '_' :: intDecimal r)⟩

/-- IDs of one generation run, as a function of the per-event
`(createdAt.UnixNano(), rand.Int63())` pairs consumed by `generateEvent`. -/
def generateRunIDs (draws : List (ℤ × ℤ)) : List String :=
  draws.map fun d => eventID d.1 d.2

/-! ### Runner (package benchmark) -/

/-- The `Runner` configuration struct. -/
structure Runner where
  EventCount : ℕ
  BatchSize : ℕ
  Workers : ℕ
  QueryIterations : ℕ
  WarmupIterations : ℕ
  PreloadCount : ℕ

/-- The `InsertResult` struct; `DurationSec` stands for `Duration.Seconds()`. -/
structure InsertResult where
  TotalEvents : ℕ
  DurationSec : ℚ
  Throughput : ℚ
  ErrorCount : ℕ
  BatchSize : ℕ
  WorkerCount : ℕ

/-- Final value of the `totalInserted` counter of `parallelInsert`: each worker
atomically adds `len(batch)` for every batch whose `InsertBatch` call
succeeded, so the joined value is the sum of the successful batch sizes over
all generated batches, independent of worker interleaving.  `fails i = true`
models the target returning an error for the i-th generated batch. -/
def insertedCount (total batch : ℕ) (fails : ℕ → Bool) : ℕ :=
  (((generateSizes total batch).enum).map (fun q => if fails q.1 then 0 else q.2)).sum

/-- Final value of the `totalErrors` counter of `parallelInsert`: one atomic
increment per failed batch. -/
def insertErrors (total batch : ℕ) (fails : ℕ → Bool) : ℕ :=
  ((generateSizes total batch).enum).countP (fun q => fails q.1)

/-- Translation of `Runner.RunInsert`: runs `parallelInsert` over the generated
batches and packages the metrics.  `durSec` is the positive elapsed wall-clock
time in seconds (`time.Since(start).Seconds()`), left abstract since the model
has no clock; `Throughput := float64(inserted) / duration.Seconds()` becomes an
exact rational ratio. -/
def RunInsert (r : Runner) (fails : ℕ → Bool) (durSec : ℚ) : InsertResult :=
  { TotalEvents := r.EventCount
    DurationSec := durSec
    Throughput := (insertedCount r.EventCount r.BatchSize fails : ℚ) / durSec
    ErrorCount := insertErrors r.EventCount r.BatchSize fails
    BatchSize := r.BatchSize
    WorkerCount := r.Workers }

/-- Translation of `Runner.Preload`: returns `nil` immediately when
`PreloadCount <= 0`; otherwise runs the same `parallelInsert` machinery and
returns the `"preload failed"` error exactly when `errors > 0 && inserted == 0`
(the `%d` count interpolation in the Go message is elided). -/
def Preload (r : Runner) (fails : ℕ → Bool) : Option String :=
  if r.PreloadCount = 0 then none
  else if 0 < insertErrors r.PreloadCount r.BatchSize fails ∧
          insertedCount r.PreloadCount r.BatchSize fails = 0 then
    some "preload failed: all batches errored"
  else none

/-- The `QueryResult` struct. -/
structure QueryResult where
  QueryName : String
  Iterations : ℕ
  AvgDuration : ℤ
  MinDuration : ℤ
  MaxDuration : ℤ
  P50Duration : ℤ
  P95Duration : ℤ
  P99Duration : ℤ
  ErrorCount : ℕ
  DateRange : String

/-- Translation of `Runner.measureQuery`: `QueryIterations` sequential calls to
`GetEventStats`; a failed call increments `errors` and contributes nothing, a
successful call appends its elapsed time to `durations`.  `resp i = none`
models an error on the i-th measured call, `resp i = some d` success with
elapsed time `d`. -/
def measureQuery (q : ℕ) (resp : ℕ → Option ℤ) : List ℤ × ℕ :=
  (List.range q).foldl
    (fun acc i =>
      match resp i with
      | none => (acc.1, acc.2 + 1)
      | some d => (acc.1 ++ [d], acc.2))
    ([], 0)

/-- Translation of `Runner.runQuery`: `WarmupIterations` discarded warmup calls
(they do not influence the result value, so only their count appears in the
call-trace model `runQueryCalls` below), then `measureQuery`; when no measured
call succeeded the Go function returns `&QueryResult{QueryName: name,
ErrorCount: errors}`, i.e. every other field is the zero value.  `dateRange`
abstracts the `start.Format(...)` rendering of the wall-clock range. -/
def runQuery (q : ℕ) (name dateRange : String) (resp : ℕ → Option ℤ) : QueryResult :=
  let m := measureQuery q resp
  if m.1.length = 0 then
    { QueryName := name, Iterations := 0, AvgDuration := 0, MinDuration := 0
      MaxDuration := 0, P50Duration := 0, P95Duration := 0, P99Duration := 0
      ErrorCount := m.2, DateRange := "" }
  else
    { QueryName := name, Iterations := m.1.length
      AvgDuration := AvgDuration m.1, MinDuration := MinDuration m.1
      MaxDuration := MaxDuration m.1
      P50Duration := Percentile m.1 (1/2)
      P95Duration := Percentile m.1 (19/20)
      P99Duration := Percentile m.1 (99/100)
      ErrorCount := m.2, DateRange := dateRange }

/-- Phase tag of one `GetEventStats` call issued by `runQuery`. -/
inductive CallPhase
  | warmup
  | measured
deriving DecidableEq

/-- The sequence of `GetEventStats` calls one `runQuery` invocation issues
against the target, in program order: the warmup for-loop appends one call per
iteration, then the `measureQuery` for-loop appends one call per iteration
(failed calls still count: the call was issued). -/
def runQueryCalls (w q : ℕ) : List CallPhase :=
  (List.range q).foldl (fun t _ => t ++ [CallPhase.measured])
    ((List.range w).foldl (fun t _ => t ++ [CallPhase.warmup]) [])

/-- The four scenario names of `RunQueries`, in the order the Go slice lists
them. -/
def scenarioNames : List String := ["1_hour", "1_day", "1_week", "1_month"]

/-- Translation of `Runner.RunQueries`: one `runQuery` per scenario; the Go map
keyed by scenario name is modelled as an association list in scenario order.
`resp name` is the target's response oracle for the scenario's measured calls
and `dateRange` the rendered date label. -/
def RunQueries (r : Runner) (resp : String → ℕ → Option ℤ) (dateRange : String) :
    List (String × QueryResult) :=
  scenarioNames.map fun name => (name, runQuery r.QueryIterations name dateRange (resp name))

/-! ### Orchestrator (package orchestrator, `WaitReady`)

`WaitReady` sleeps 5 seconds unconditionally, then creates a 60-second
`time.After` deadline and a 2-second ticker and loops on `select`.  We model
wall-clock time in milliseconds from the moment of the call: tick `k` is ready
at `graceMs + tickIntervalMs * k` and the deadline at
`graceMs + readinessDeadlineMs` (the deadline timer starts only after the
grace sleep).  When a tick and the deadline are ready at the same instant the
model lets `select` take the tick first — the worst case for the return-time
bound, matching the "plus one polling interval" slack.  Context cancellation
is not modelled (the claims concern the never-succeeding-probe behaviour). -/

/-- The unconditional 5-second grace sleep, in milliseconds. -/
def graceMs : ℕ := 5000

/-- The 60-second readiness deadline, in milliseconds. -/
def readinessDeadlineMs : ℕ := 60000

/-- The 2-second ticker interval, in milliseconds. -/
def tickIntervalMs : ℕ := 2000

/-- The `WaitReady` polling loop from tick number `k` on: returns
`(success flag, return time in ms since the call, times of the probes issued)`.
`probe k = true` models the k-th readiness check succeeding. -/
def waitReadyFrom (probe : ℕ → Bool) (k : ℕ) : Bool × ℕ × List ℕ :=
  if h : graceMs + tickIntervalMs * k ≤ graceMs + readinessDeadlineMs then
    if probe k then
      (true, graceMs + tickIntervalMs * k, [graceMs + tickIntervalMs * k])
    else
      let r := waitReadyFrom probe (k + 1)
      (r.1, r.2.1, (graceMs + tickIntervalMs * k) :: r.2.2)
  else
    (false, graceMs + readinessDeadlineMs, [])
termination_by readinessDeadlineMs / tickIntervalMs + 1 - k
decreasing_by
  simp only [graceMs, readinessDeadlineMs, tickIntervalMs] at h ⊢
  omega

/-- Translation of `orchestrator.WaitReady` under the timing model above: the
grace sleep, then the tick/deadline/probe loop starting at tick 1. -/
def WaitReady (probe : ℕ → Bool) : Bool × ℕ × List ℕ :=
  waitReadyFrom probe 1

/-! ## Helper lemmas -/

theorem msRange100_sorted : List.Sorted (· ≤ ·) msRange100 := by
  rw [msRange100]
  refine List.Pairwise.map _ ?_ (List.sorted_le_range 100)
  intro a b hab
  have h : (a : ℤ) ≤ b := by exact_mod_cast hab
  nlinarith

theorem msRange100_length : msRange100.length = 100 := by
  rw [msRange100, List.length_map, List.length_range]

theorem percentileIndex_eq_min (n : ℕ) (p : ℚ) :
    percentileIndex n p = min (Int.floor ((n : ℚ) * p)).toNat (n - 1) := by
  simp only [percentileIndex]
  split <;> omega

theorem insertionSort_eq_mergeSort (l : List ℤ) :
    List.insertionSort (· ≤ ·) l = l.mergeSort (fun a b => decide (a ≤ b)) :=
  (List.mergeSort_eq_insertionSort (· ≤ ·) l).symm

theorem percentile_eq_spec (l : List ℤ) (p : ℚ) (hne : l ≠ []) :
    Percentile l p = percentileSpec l p := by
  unfold Percentile percentileSpec
  rw [if_neg (fun h => hne (List.length_eq_zero.mp h)), if_neg hne]
  rw [insertionSort_eq_mergeSort, percentileIndex_eq_min]

theorem percentile_msRange100 (k : ℕ) (p : ℚ) (hk : k < 100)
    (hidx : percentileIndex 100 p = k) :
    Percentile msRange100 p = ((k : ℤ) + 1) * 1000000 := by
  rw [Percentile, if_neg (by rw [msRange100_length]; omega)]
  rw [msRange100_sorted.insertionSort_eq, msRange100_length, hidx]
  rw [List.getD_eq_getElem msRange100 0 (by rw [msRange100_length]; omega)]
  simp only [msRange100, List.getElem_map, List.getElem_range]

/-! ## C4 -/

/-- C4: for every non-empty list of durations and percentile argument,
`Percentile` returns the element at index `⌊len * p⌋` of the ascending sort,
clamped to `len - 1` (nearest-rank selection, rendered independently from the
spec's words as `percentileSpec`); in particular on the durations 1ms..100ms it
yields 51ms at p = 0.50, 96ms at p = 0.95 and 100ms at p = 0.99. -/
theorem percentile_nearest_rank :
    (∀ (l : List ℤ) (p : ℚ), l ≠ [] → Percentile l p = percentileSpec l p) ∧
    Percentile msRange100 (1/2) = 51 * 1000000 ∧
    Percentile msRange100 (19/20) = 96 * 1000000 ∧
    Percentile msRange100 (99/100) = 100 * 1000000 := by
  refine ⟨percentile_eq_spec, ?_, ?_, ?_⟩
  · rw [percentile_msRange100 50 (1/2) (by omega)
      (by rw [percentileIndex_eq_min]; norm_num; decide)]
    norm_num
  · rw [percentile_msRange100 95 (19/20) (by omega)
      (by rw [percentileIndex_eq_min]; norm_num; decide)]
    norm_num
  · rw [percentile_msRange100 99 (99/100) (by omega)
      (by rw [percentileIndex_eq_min]; norm_num; decide)]
    norm_num

/-- Witness for C4: the general clause applied at a concrete non-empty list. -/
theorem percentile_nearest_rank_witness :
    Percentile [3, 1, 2] (1/2) = percentileSpec [3, 1, 2] (1/2) :=
  percentile_nearest_rank.1 [3, 1, 2] (1/2) (by simp)

/-! ## C5 -/

/-- C5: Percentile leaves the caller's slice observably unchanged: in the
call-level model the post-call slice contents equal the input (the sort runs
on the copy) and the returned value is the percentile of the original list;
in particular for `[300ms, 100ms, 200ms]` the first element after
`Percentile(x, 0.5)` is still 300ms. -/
theorem percentile_preserves_input :
    (∀ (x : List ℤ) (p : ℚ),
      (PercentileCall x p).2 = x ∧ (PercentileCall x p).1 = Percentile x p) ∧
    (PercentileCall [300000000, 100000000, 200000000] (1/2)).2.getD 0 0 = 300000000 := by
  have hmain : ∀ (x : List ℤ) (p : ℚ),
      (PercentileCall x p).2 = x ∧ (PercentileCall x p).1 = Percentile x p := by
    intro x p
    constructor
    · unfold PercentileCall
      split <;> rfl
    · unfold PercentileCall Percentile
      split <;> rfl
  refine ⟨hmain, ?_⟩
  rw [(hmain [300000000, 100000000, 200000000] (1/2)).1]
  rfl

/-! ## C10 helper lemmas: the running maximum of `MaxDuration` -/

theorem foldMax_mem (xs : List ℤ) (a : ℤ) :
    xs.foldl (fun result x => if x > result then x else result) a ∈ a :: xs := by
  induction xs generalizing a with
  | nil => simp
  | cons x xs ih =>
    have h := ih (if x > a then x else a)
    simp only [List.foldl_cons]
    rcases List.mem_cons.mp h with h1 | h1
    · rw [h1]
      split <;> simp
    · simp [h1]

theorem le_foldMax_init (xs : List ℤ) (a : ℤ) :
    a ≤ xs.foldl (fun result x => if x > result then x else result) a := by
  induction xs generalizing a with
  | nil => simp
  | cons x xs ih =>
    simp only [List.foldl_cons]
    refine le_trans ?_ (ih (if x > a then x else a))
    split <;> omega

theorem le_foldMax_of_mem {x : ℤ} (xs : List ℤ) (a : ℤ) (hx : x ∈ xs) :
    x ≤ xs.foldl (fun result y => if y > result then y else result) a := by
  induction xs generalizing a with
  | nil => cases hx
  | cons y ys ih =>
    simp only [List.foldl_cons]
    rcases List.mem_cons.mp hx with h1 | h1
    · subst h1
      refine le_trans ?_ (le_foldMax_init ys (if x > a then x else a))
      split <;> omega
    · exact ih _ h1

theorem maxDuration_mem (l : List ℤ) (hne : l ≠ []) : MaxDuration l ∈ l := by
  match l with
  | [] => exact absurd rfl hne
  | d :: ds => exact foldMax_mem ds d

theorem le_maxDuration (l : List ℤ) (x : ℤ) (hx : x ∈ l) : x ≤ MaxDuration l := by
  match l with
  | [] => cases hx
  | d :: ds =>
    rcases List.mem_cons.mp hx with h1 | h1
    · subst h1
      exact le_foldMax_init ds x
    · exact le_foldMax_of_mem ds d h1

theorem sorted_getD_last_eq_max (l : List ℤ) (hne : l ≠ []) :
    (List.insertionSort (· ≤ ·) l).getD (l.length - 1) 0 = MaxDuration l := by
  have hlen : (List.insertionSort (· ≤ ·) l).length = l.length :=
    List.length_insertionSort (· ≤ ·) l
  have hpos : 0 < l.length := List.length_pos.mpr hne
  have hlt : l.length - 1 < (List.insertionSort (· ≤ ·) l).length := by omega
  rw [List.getD_eq_getElem _ 0 hlt]
  have hperm := List.perm_insertionSort (· ≤ ·) l
  have hsorted := List.sorted_insertionSort (· ≤ ·) l
  refine le_antisymm ?_ ?_
  · exact le_maxDuration l _ (hperm.mem_iff.mp (List.getElem_mem hlt))
  · have hmem : MaxDuration l ∈ List.insertionSort (· ≤ ·) l :=
      hperm.mem_iff.mpr (maxDuration_mem l hne)
    obtain ⟨i, hi⟩ := List.get_of_mem hmem
    rw [← hi]
    have hle : i ≤ (⟨l.length - 1, hlt⟩ : Fin (List.insertionSort (· ≤ ·) l).length) := by
      have := i.isLt
      exact Fin.mk_le_mk.mpr (by omega)
    simpa using hsorted.rel_get_of_le hle

/-! ## C10 -/

/-- C10: for every non-empty duration list and every p with `1 ≤ p`
(equivalently, every p whose computed index reaches or exceeds the length),
Percentile returns the maximum element: the clamped index selects the last
element of the ascending sort, which equals `MaxDuration`. -/
theorem percentile_saturated_eq_max (l : List ℤ) (p : ℚ) (hne : l ≠ []) (hp : 1 ≤ p) :
    Percentile l p = MaxDuration l := by
  have hpos : 0 < l.length := List.length_pos.mpr hne
  have hfloor : (l.length : ℤ) ≤ Int.floor ((l.length : ℚ) * p) := by
    rw [Int.le_floor]
    push_cast
    nlinarith [hp, hpos]
  have hidx : percentileIndex l.length p = l.length - 1 := by
    simp only [percentileIndex]
    have : l.length ≤ (Int.floor ((l.length : ℚ) * p)).toNat := by omega
    simp [this]
  rw [Percentile, if_neg (by omega)]
  rw [hidx, sorted_getD_last_eq_max l hne]

/-- Witness for C10: `Percentile([3ms, 1ms, 2ms], 1.0)` is the maximum, 3ms. -/
theorem percentile_saturated_eq_max_witness :
    Percentile [3000000, 1000000, 2000000] 1 = MaxDuration [3000000, 1000000, 2000000] :=
  percentile_saturated_eq_max [3000000, 1000000, 2000000] 1 (by simp) (by norm_num)

/-! ## C2 helper lemmas: the generated batch sizes -/

theorem generateSizes_zero (b : ℕ) : generateSizes 0 b = [] := by
  rw [generateSizes]
  simp

theorem generateSizes_ne_nil (n b : ℕ) (hn : n ≠ 0) (hb : b ≠ 0) :
    generateSizes n b ≠ [] := by
  rw [generateSizes, dif_neg (by omega)]
  exact List.cons_ne_nil _ _

theorem generateSizes_sum (n b : ℕ) (hb : 1 ≤ b) : (generateSizes n b).sum = n := by
  induction n using Nat.strong_induction_on with
  | _ n ih =>
    rw [generateSizes]
    by_cases h : n = 0 ∨ b = 0
    · have hn : n = 0 := by omega
      rw [dif_pos h, List.sum_nil, hn]
    · rw [dif_neg h, List.sum_cons, ih (n - min b n) (by omega)]
      omega

theorem generateSizes_le (n b : ℕ) : ∀ s ∈ generateSizes n b, s ≤ b := by
  induction n using Nat.strong_induction_on with
  | _ n ih =>
    intro s hs
    rw [generateSizes] at hs
    by_cases h : n = 0 ∨ b = 0
    · rw [dif_pos h] at hs
      cases hs
    · rw [dif_neg h] at hs
      rcases List.mem_cons.mp hs with h1 | h1
      · omega
      · exact ih (n - min b n) (by omega) s h1

theorem generateSizes_pos (n b : ℕ) (hb : 1 ≤ b) : ∀ s ∈ generateSizes n b, 1 ≤ s := by
  induction n using Nat.strong_induction_on with
  | _ n ih =>
    intro s hs
    rw [generateSizes] at hs
    by_cases h : n = 0 ∨ b = 0
    · rw [dif_pos h] at hs
      cases hs
    · rw [dif_neg h] at hs
      rcases List.mem_cons.mp hs with h1 | h1
      · omega
      · exact ih (n - min b n) (by omega) s h1

theorem generateSizes_length (n b : ℕ) (hb : 1 ≤ b) :
    (generateSizes n b).length = (n + b - 1) / b := by
  induction n using Nat.strong_induction_on with
  | _ n ih =>
    rw [generateSizes]
    by_cases h : n = 0 ∨ b = 0
    · have hn : n = 0 := by omega
      rw [dif_pos h, hn]
      rw [show 0 + b - 1 = b - 1 by omega]
      exact (Nat.div_eq_of_lt (by omega)).symm
    · rw [dif_neg h, List.length_cons, ih (n - min b n) (by omega)]
      by_cases hcase : b ≤ n
      · have hmin : min b n = b := by omega
        have hsplit : n + b - 1 = (n - min b n + b - 1) + b := by omega
        rw [hsplit, Nat.add_div_right _ (by omega)]
      · have hmin : min b n = n := by omega
        rw [hmin, Nat.sub_self]
        rw [show 0 + b - 1 = b - 1 by omega, Nat.div_eq_of_lt (by omega)]
        rw [show n + b - 1 = (n - 1) + b by omega, Nat.add_div_right _ (by omega)]
        rw [Nat.div_eq_of_lt (by omega)]

theorem generateSizes_last (n b : ℕ) (hb : 1 ≤ b) (hmod : n % b ≠ 0) :
    (generateSizes n b).getLast? = some (n % b) := by
  induction n using Nat.strong_induction_on with
  | _ n ih =>
    have hn : n ≠ 0 := by
      intro hc
      rw [hc, Nat.zero_mod] at hmod
      exact hmod rfl
    rw [generateSizes, dif_neg (by omega)]
    by_cases hcase : n < b
    · have hmin : min b n = n := by omega
      rw [hmin, Nat.sub_self, generateSizes_zero]
      rw [Nat.mod_eq_of_lt hcase]
      rfl
    · have hne : n ≠ b := by
        intro hc
        rw [hc, Nat.mod_self] at hmod
        exact hmod rfl
      have hgt : b < n := by omega
      have hmin : min b n = b := by omega
      have hmod2 : (n - b) % b ≠ 0 := by
        rw [← Nat.mod_eq_sub_mod (by omega)]
        exact hmod
      have hrest := ih (n - b) (by omega) hmod2
      rw [hmin]
      obtain ⟨r, rs, hr⟩ := List.exists_cons_of_ne_nil (generateSizes_ne_nil (n - b) b (by omega) (by omega))
      rw [hr] at hrest ⊢
      rw [List.getLast?_cons_cons, hrest]
      exact congrArg some (Nat.mod_eq_sub_mod (by omega)).symm

/-! ## C2 -/

/-- C2: for every `totalCount` and `batchSize ≥ 1`, `Generate` emits exactly
`⌈totalCount / batchSize⌉` batches, each of size at most `batchSize`, whose
sizes sum to `totalCount`; the final batch carries the
`totalCount mod batchSize` remainder when it is nonzero; and for
`totalCount = 0` no batch is emitted. -/
theorem generate_batches (n b : ℕ) (hb : 1 ≤ b) :
    (generateSizes n b).length = (n + b - 1) / b ∧
    (∀ s ∈ generateSizes n b, s ≤ b) ∧
    (generateSizes n b).sum = n ∧
    (n % b ≠ 0 → (generateSizes n b).getLast? = some (n % b)) ∧
    generateSizes 0 b = [] :=
  ⟨generateSizes_length n b hb, generateSizes_le n b, generateSizes_sum n b hb,
   generateSizes_last n b hb, generateSizes_zero b⟩

/-- Witness for C2, at `totalCount = 10`, `batchSize = 3`: 4 batches,
`⌈10/3⌉ = 4`, sizes sum to 10, last batch of size `10 mod 3 = 1`. -/
theorem generate_batches_witness :
    (generateSizes 10 3).length = (10 + 3 - 1) / 3 ∧
    (∀ s ∈ generateSizes 10 3, s ≤ 3) ∧
    (generateSizes 10 3).sum = 10 ∧
    (10 % 3 ≠ 0 → (generateSizes 10 3).getLast? = some (10 % 3)) ∧
    generateSizes 0 3 = [] :=
  generate_batches 10 3 (by omega)

/-! ## C1 helper lemmas -/

theorem insertedCount_lt (total batch : ℕ) (fails : ℕ → Bool) (hb : 1 ≤ batch)
    (hfail : ∃ i < (generateSizes total batch).length, fails i = true) :
    insertedCount total batch fails < total := by
  obtain ⟨i, hi, hf⟩ := hfail
  have hsum : ((generateSizes total batch).enum.map Prod.snd).sum = total := by
    rw [List.enum_map_snd, generateSizes_sum total batch hb]
  rw [insertedCount]
  calc (((generateSizes total batch).enum).map (fun q => if fails q.1 then 0 else q.2)).sum
      < ((generateSizes total batch).enum.map Prod.snd).sum := by
        refine List.sum_lt_sum _ _ ?_ ?_
        · rintro ⟨j, s⟩ hq
          dsimp only
          split <;> omega
        · have hilen : i < (generateSizes total batch).enum.length := by
            rw [List.enum_length]
            exact hi
          refine ⟨(generateSizes total batch).enum[i], List.getElem_mem hilen, ?_⟩
          rw [List.getElem_enum]
          dsimp only
          rw [hf, if_pos rfl]
          have hmem : (generateSizes total batch)[i] ∈ generateSizes total batch :=
            List.getElem_mem hi
          exact generateSizes_pos total batch hb _ hmem
    _ = total := hsum

/-! ## C1 -/

/-- C1: the Throughput of the InsertResult returned by RunInsert is the number
of successfully inserted events (counted only over batches whose InsertBatch
call succeeded) divided by the elapsed seconds; hence when at least one batch
fails, throughput times duration is strictly below the requested TotalEvents. -/
theorem runInsert_throughput (r : Runner) (fails : ℕ → Bool) (durSec : ℚ)
    (hb : 1 ≤ r.BatchSize) (hd : 0 < durSec)
    (hfail : ∃ i < (generateSizes r.EventCount r.BatchSize).length, fails i = true) :
    (RunInsert r fails durSec).Throughput =
      (insertedCount r.EventCount r.BatchSize fails : ℚ) / durSec ∧
    (RunInsert r fails durSec).Throughput * (RunInsert r fails durSec).DurationSec <
      ((RunInsert r fails durSec).TotalEvents : ℚ) := by
  constructor
  · rfl
  · show ((insertedCount r.EventCount r.BatchSize fails : ℚ) / durSec) * durSec
      < (r.EventCount : ℚ)
    rw [div_mul_cancel₀ _ (ne_of_gt hd)]
    exact_mod_cast insertedCount_lt r.EventCount r.BatchSize fails hb hfail

/-- Witness for C1: 2 events in 2 batches of 1, the 2nd batch failing, elapsed
1 second: throughput times duration is below the 2 events requested. -/
theorem runInsert_throughput_witness :
    (RunInsert ⟨2, 1, 1, 0, 0, 0⟩ (fun i => decide (i = 1)) 1).Throughput *
      (RunInsert ⟨2, 1, 1, 0, 0, 0⟩ (fun i => decide (i = 1)) 1).DurationSec <
      ((RunInsert ⟨2, 1, 1, 0, 0, 0⟩ (fun i => decide (i = 1)) 1).TotalEvents : ℚ) :=
  (runInsert_throughput ⟨2, 1, 1, 0, 0, 0⟩ (fun i => decide (i = 1)) 1 (by decide)
    (by norm_num)
    ⟨1, by rw [generateSizes_length 2 1 (by omega)]; norm_num, by decide⟩).2

/-! ## C8 -/

theorem preload_eq (r : Runner) (fails : ℕ → Bool) :
    Preload r fails =
      if 0 < insertErrors r.PreloadCount r.BatchSize fails ∧
         insertedCount r.PreloadCount r.BatchSize fails = 0 then
        some "preload failed: all batches errored"
      else none := by
  unfold Preload
  by_cases h0 : r.PreloadCount = 0
  · rw [if_pos h0, h0]
    rw [if_neg]
    rintro ⟨h1, h2⟩
    rw [insertErrors, generateSizes_zero] at h1
    simp at h1
  · rw [if_neg h0]

/-- C8: Preload returns an error iff at least one batch errored and zero
events were inserted (total preload failure); as soon as at least one event
was inserted it returns success, however many batches failed. -/
theorem preload_error_iff (r : Runner) (fails : ℕ → Bool) :
    ((Preload r fails).isSome ↔
      0 < insertErrors r.PreloadCount r.BatchSize fails ∧
      insertedCount r.PreloadCount r.BatchSize fails = 0) ∧
    (0 < insertedCount r.PreloadCount r.BatchSize fails → Preload r fails = none) := by
  constructor
  · rw [preload_eq]
    split
    · rename_i hcond
      simpa using hcond
    · rename_i hcond
      simpa using hcond
  · intro hpos
    rw [preload_eq, if_neg]
    rintro ⟨h1, h2⟩
    omega

/-- Witness for C8: preloading 2 events in 2 batches of 1 with the 2nd batch
failing inserts 1 event and returns success. -/
theorem preload_error_iff_witness :
    Preload ⟨0, 1, 1, 0, 0, 2⟩ (fun i => decide (i = 1)) = none :=
  (preload_error_iff ⟨0, 1, 1, 0, 0, 2⟩ (fun i => decide (i = 1))).2
    (by
      rw [insertedCount]
      rw [show generateSizes 2 1 = [1, 1] by simp [generateSizes]]
      decide)

/-! ## C6 and C7 helper lemmas -/

theorem measureQuery_eq (q : ℕ) (resp : ℕ → Option ℤ) :
    measureQuery q resp =
      ((List.range q).filterMap resp,
       (List.range q).countP (fun i => (resp i).isNone)) := by
  induction q with
  | zero => rfl
  | succ n ih =>
    have hfold : (List.range n).foldl
        (fun acc i =>
          match resp i with
          | none => (acc.1, acc.2 + 1)
          | some d => (acc.1 ++ [d], acc.2)) ([], 0) = measureQuery n resp := rfl
    rw [measureQuery, List.range_succ, List.foldl_append, hfold, ih]
    rw [List.filterMap_append, List.countP_append]
    cases hr : resp n <;>
      simp [hr, List.filterMap_cons, List.countP_cons]

theorem length_filterMap_eq_countP (l : List ℕ) (resp : ℕ → Option ℤ) :
    (l.filterMap resp).length = l.countP (fun i => (resp i).isSome) := by
  induction l with
  | nil => rfl
  | cons a l ih =>
    cases hr : resp a <;> simp [List.filterMap_cons, hr, List.countP_cons, ih]

theorem countP_isSome_add_isNone (q : ℕ) (resp : ℕ → Option ℤ) :
    (List.range q).countP (fun i => (resp i).isSome) +
      (List.range q).countP (fun i => (resp i).isNone) = q := by
  have hgen : ∀ l : List ℕ,
      l.countP (fun i => (resp i).isSome) + l.countP (fun i => (resp i).isNone) =
        l.length := by
    intro l
    induction l with
    | nil => rfl
    | cons a l ih =>
      cases hr : resp a <;> simp [List.countP_cons, hr] <;> omega
  rw [hgen, List.length_range]

theorem foldl_append_replicate (n : ℕ) (c : CallPhase) (init : List CallPhase) :
    (List.range n).foldl (fun t _ => t ++ [c]) init = init ++ List.replicate n c := by
  induction n with
  | zero => simp
  | succ n ih =>
    rw [List.range_succ, List.foldl_append, ih, List.replicate_succ']
    simp [List.append_assoc]

/-! ## C6 -/

/-- C6: RunQueries returns exactly the four keys 1_hour, 1_day, 1_week,
1_month; within one scenario the issued GetEventStats calls are all the warmup
calls followed by all the measured calls, and their total count is
warmupIterations + queryIterations. -/
theorem runQueries_scenarios (r : Runner) (resp : String → ℕ → Option ℤ) (dr : String) :
    (RunQueries r resp dr).map Prod.fst = ["1_hour", "1_day", "1_week", "1_month"] ∧
    runQueryCalls r.WarmupIterations r.QueryIterations =
      List.replicate r.WarmupIterations CallPhase.warmup ++
        List.replicate r.QueryIterations CallPhase.measured ∧
    (runQueryCalls r.WarmupIterations r.QueryIterations).length =
      r.WarmupIterations + r.QueryIterations := by
  have htrace : runQueryCalls r.WarmupIterations r.QueryIterations =
      List.replicate r.WarmupIterations CallPhase.warmup ++
        List.replicate r.QueryIterations CallPhase.measured := by
    rw [runQueryCalls, foldl_append_replicate, foldl_append_replicate, List.nil_append]
  refine ⟨?_, htrace, ?_⟩
  · rw [RunQueries, List.map_map]
    rfl
  · rw [htrace]
    simp [List.length_append, List.length_replicate]

/-! ## C7 -/

/-- C7: the QueryResult of one scenario counts in Iterations only the measured
calls that succeeded, each failed call adds to ErrorCount and contributes no
latency sample (successes plus errors account for all measured calls), and
when zero measured calls succeed every latency field is the zero value and
only the name and the error count are populated. -/
theorem runQuery_error_accounting (q : ℕ) (name dr : String) (resp : ℕ → Option ℤ) :
    (runQuery q name dr resp).Iterations =
      (List.range q).countP (fun i => (resp i).isSome) ∧
    (runQuery q name dr resp).ErrorCount =
      (List.range q).countP (fun i => (resp i).isNone) ∧
    (runQuery q name dr resp).Iterations + (runQuery q name dr resp).ErrorCount = q ∧
    ((List.range q).countP (fun i => (resp i).isSome) = 0 →
      runQuery q name dr resp =
        { QueryName := name, Iterations := 0, AvgDuration := 0, MinDuration := 0
          MaxDuration := 0, P50Duration := 0, P95Duration := 0, P99Duration := 0
          ErrorCount := q, DateRange := "" }) := by
  have hm := measureQuery_eq q resp
  have hlen := length_filterMap_eq_countP (List.range q) resp
  have hsum := countP_isSome_add_isNone q resp
  by_cases hz : (List.range q).countP (fun i => (resp i).isSome) = 0
  · have hnil : ((List.range q).filterMap resp).length = 0 := by rw [hlen, hz]
    have hrun : runQuery q name dr resp =
        { QueryName := name, Iterations := 0, AvgDuration := 0, MinDuration := 0
          MaxDuration := 0, P50Duration := 0, P95Duration := 0, P99Duration := 0
          ErrorCount := (List.range q).countP (fun i => (resp i).isNone)
          DateRange := "" } := by
      rw [runQuery, hm]
      dsimp only
      rw [if_pos hnil]
    rw [hrun]
    refine ⟨hz.symm, rfl, by dsimp only; omega, fun _ => ?_⟩
    have : (List.range q).countP (fun i => (resp i).isNone) = q := by omega
    rw [this]
  · have hnil : ¬ ((List.range q).filterMap resp).length = 0 := by rw [hlen]; exact hz
    have hrun : runQuery q name dr resp =
        { QueryName := name, Iterations := ((List.range q).filterMap resp).length
          AvgDuration := AvgDuration ((List.range q).filterMap resp)
          MinDuration := MinDuration ((List.range q).filterMap resp)
          MaxDuration := MaxDuration ((List.range q).filterMap resp)
          P50Duration := Percentile ((List.range q).filterMap resp) (1/2)
          P95Duration := Percentile ((List.range q).filterMap resp) (19/20)
          P99Duration := Percentile ((List.range q).filterMap resp) (99/100)
          ErrorCount := (List.range q).countP (fun i => (resp i).isNone)
          DateRange := dr } := by
      rw [runQuery, hm]
      dsimp only
      rw [if_neg hnil]
    rw [hrun]
    exact ⟨hlen, rfl, by dsimp only; omega, fun hc => absurd hc hz⟩

/-- Witness for C7: two measured calls that both fail produce a QueryResult
with zero iterations, error count 2 and every other field the zero value. -/
theorem runQuery_error_accounting_witness :
    runQuery 2 "1_hour" "r" (fun _ => none) =
      { QueryName := "1_hour", Iterations := 0, AvgDuration := 0, MinDuration := 0
        MaxDuration := 0, P50Duration := 0, P95Duration := 0, P99Duration := 0
        ErrorCount := 2, DateRange := "" } :=
  (runQuery_error_accounting 2 "1_hour" "r" (fun _ => none)).2.2.2 (by decide)

/-! ## C3 helper lemmas: the decimal ID encoding is injective -/

theorem digitChar_toNat : ∀ d < 10, (digitChar d).toNat = 48 + d := by decide

theorem digitChar_ne_underscore : ∀ d < 10, digitChar d ≠ '_' := by decide

theorem digitChar_ne_minus : ∀ d < 10, digitChar d ≠ '-' := by decide

theorem natDecimal_digits (n : ℕ) : ∀ c ∈ natDecimal n, ∃ d, d < 10 ∧ c = digitChar d := by
  induction n using Nat.strong_induction_on with
  | _ n ih =>
    intro c hc
    rw [natDecimal] at hc
    by_cases h : n < 10
    · rw [dif_pos h] at hc
      exact ⟨n, h, List.mem_singleton.mp hc⟩
    · rw [dif_neg h] at hc
      rcases List.mem_append.mp hc with h1 | h1
      · exact ih (n / 10) (Nat.div_lt_self (by omega) (by omega)) c h1
      · exact ⟨n % 10, Nat.mod_lt _ (by omega), List.mem_singleton.mp h1⟩

theorem natDecimal_ne_nil (n : ℕ) : natDecimal n ≠ [] := by
  rw [natDecimal]
  by_cases h : n < 10
  · rw [dif_pos h]
    exact List.cons_ne_nil _ _
  · rw [dif_neg h]
    intro hc
    exact List.cons_ne_nil _ _ (List.append_eq_nil.mp hc).2

theorem digitsVal_natDecimal (n : ℕ) : digitsVal (natDecimal n) = n := by
  induction n using Nat.strong_induction_on with
  | _ n ih =>
    rw [natDecimal]
    by_cases h : n < 10
    · rw [dif_pos h, digitsVal, List.foldl_cons, List.foldl_nil]
      rw [digitChar_toNat n h]
      omega
    · rw [dif_neg h, digitsVal, List.foldl_append]
      rw [show (natDecimal (n / 10)).foldl (fun acc c => 10 * acc + (c.toNat - 48)) 0 =
        digitsVal (natDecimal (n / 10)) from rfl]
      rw [ih (n / 10) (Nat.div_lt_self (by omega) (by omega))]
      rw [List.foldl_cons, List.foldl_nil]
      rw [digitChar_toNat (n % 10) (Nat.mod_lt _ (by omega))]
      omega

theorem natDecimal_inj {m n : ℕ} (h : natDecimal m = natDecimal n) : m = n := by
  have hv := congrArg digitsVal h
  rwa [digitsVal_natDecimal, digitsVal_natDecimal] at hv

theorem natDecimal_no_underscore (n : ℕ) : '_' ∉ natDecimal n := by
  intro hc
  obtain ⟨d, hd, he⟩ := natDecimal_digits n '_' hc
  exact digitChar_ne_underscore d hd he.symm

theorem natDecimal_no_minus (n : ℕ) : '-' ∉ natDecimal n := by
  intro hc
  obtain ⟨d, hd, he⟩ := natDecimal_digits n '-' hc
  exact digitChar_ne_minus d hd he.symm

theorem intDecimal_no_underscore (z : ℤ) : '_' ∉ intDecimal z := by
  rw [intDecimal]
  split
  · intro hc
    rcases List.mem_cons.mp hc with h1 | h1
    · exact absurd h1.symm (by decide)
    · exact natDecimal_no_underscore _ h1
  · exact natDecimal_no_underscore _

theorem intDecimal_inj {a b : ℤ} (h : intDecimal a = intDecimal b) : a = b := by
  rw [intDecimal, intDecimal] at h
  by_cases ha : a < 0 <;> by_cases hb : b < 0
  · rw [if_pos ha, if_pos hb] at h
    injection h with _ h2
    have := natDecimal_inj h2
    omega
  · rw [if_pos ha, if_neg hb] at h
    obtain ⟨c, cs, hcs⟩ := List.exists_cons_of_ne_nil (natDecimal_ne_nil b.toNat)
    rw [hcs] at h
    injection h with h1 _
    obtain ⟨d, hd, he⟩ := natDecimal_digits b.toNat c (by rw [hcs]; exact List.mem_cons_self c cs)
    exact absurd (h1.trans he).symm (digitChar_ne_minus d hd)
  · rw [if_neg ha, if_pos hb] at h
    obtain ⟨c, cs, hcs⟩ := List.exists_cons_of_ne_nil (natDecimal_ne_nil a.toNat)
    rw [hcs] at h
    injection h with h1 _
    obtain ⟨d, hd, he⟩ := natDecimal_digits a.toNat c (by rw [hcs]; exact List.mem_cons_self c cs)
    exact absurd (he.symm.trans h1) (digitChar_ne_minus d hd)
  · rw [if_neg ha, if_neg hb] at h
    have := natDecimal_inj h
    omega

theorem append_sep_inj :
    ∀ (l₁ l₃ l₂ l₄ : List Char), '_' ∉ l₁ → '_' ∉ l₃ →
      l₁ ++ '_' :: l₂ = l₃ ++ '_' :: l₄ → l₁ = l₃ ∧ l₂ = l₄ := by
  intro l₁
  induction l₁ with
  | nil =>
    intro l₃ l₂ l₄ h1 h3 heq
    cases l₃ with
    | nil =>
      simp only [List.nil_append] at heq
      injection heq with _ h5
      exact ⟨rfl, h5⟩
    | cons c cs =>
      simp only [List.nil_append, List.cons_append] at heq
      injection heq with h4 _
      exact absurd (h4 ▸ List.mem_cons_self c cs) h3
  | cons a as ih =>
    intro l₃ l₂ l₄ h1 h3 heq
    cases l₃ with
    | nil =>
      simp only [List.nil_append, List.cons_append] at heq
      injection heq with h4 _
      exact absurd (h4 ▸ List.mem_cons_self a as) h1
    | cons c cs =>
      simp only [List.cons_append] at heq
      injection heq with h4 h5
      obtain ⟨h6, h7⟩ := ih cs l₂ l₄ (fun hx => h1 (List.mem_cons_of_mem a hx))
        (fun hx => h3 (List.mem_cons_of_mem c hx)) h5
      exact ⟨by rw [h4, h6], h7⟩

theorem eventID_injective : Function.Injective (fun d : ℤ × ℤ => eventID d.1 d.2) := by
  rintro ⟨t1, r1⟩ ⟨t2, r2⟩ h
  dsimp only at h
  rw [eventID, eventID] at h
  have hdata : 'e' :: 'v' :: 't' :: '_' :: (intDecimal t1 ++ '_' :: intDecimal r1) =
      'e' :: 'v' :: 't' :: '_' :: (intDecimal t2 ++ '_' :: intDecimal r2) :=
    congrArg String.data h
  injection hdata with _ hdata
  injection hdata with _ hdata
  injection hdata with _ hdata
  injection hdata with _ hdata
  obtain ⟨h1, h2⟩ := append_sep_inj _ _ _ _
    (intDecimal_no_underscore t1) (intDecimal_no_underscore t2) hdata
  rw [Prod.mk.injEq]
  exact ⟨intDecimal_inj h1, intDecimal_inj h2⟩

/-! ## C3 -/

/-- C3 counterexample: when two `generateEvent` calls obtain the same
wall-clock `UnixNano` timestamp and the same `Int63` draw — which nothing in
the code rules out, the clock can return equal readings across calls and the
PRNG gives no distinctness guarantee — the two events carry identical IDs, so
the run's IDs are not pairwise distinct. -/
theorem generateRunIDs_collision :
    ¬ (generateRunIDs [((1700000000000000000 : ℤ), (42 : ℤ)),
        ((1700000000000000000 : ℤ), (42 : ℤ))]).Nodup := by
  intro h
  rw [generateRunIDs, List.map_cons, List.map_cons, List.map_nil] at h
  exact (List.nodup_cons.mp h).1 (List.mem_singleton.mpr rfl)

/-- C3 as amended: the ID encoding `evt_<UnixNano>_<Int63>` is injective in
the (timestamp, random draw) pair, so the IDs of a generation run are pairwise
distinct whenever the per-event (UnixNano, Int63) pairs are pairwise
distinct. -/
theorem generateRunIDs_nodup (draws : List (ℤ × ℤ)) (h : draws.Nodup) :
    (generateRunIDs draws).Nodup := by
  rw [generateRunIDs]
  exact h.map eventID_injective

/-- Witness for the amended C3: two draws with equal timestamps but distinct
random components yield distinct IDs. -/
theorem generateRunIDs_nodup_witness :
    (generateRunIDs [((0 : ℤ), (1 : ℤ)), ((0 : ℤ), (2 : ℤ))]).Nodup :=
  generateRunIDs_nodup _ (by decide)

/-! ## C9 helper lemma -/

theorem waitReadyFrom_allFail (probe : ℕ → Bool) (hp : ∀ k, probe k = false) :
    ∀ n k, 31 - k ≤ n →
      (waitReadyFrom probe k).1 = false ∧
      (waitReadyFrom probe k).2.1 = graceMs + readinessDeadlineMs ∧
      ∀ t ∈ (waitReadyFrom probe k).2.2,
        ∃ j, k ≤ j ∧ t = graceMs + tickIntervalMs * j := by
  intro n
  induction n with
  | zero =>
    intro k hk
    rw [waitReadyFrom, dif_neg (by
      simp only [graceMs, tickIntervalMs, readinessDeadlineMs]
      omega)]
    exact ⟨rfl, rfl, fun t ht => absurd ht (List.not_mem_nil t)⟩
  | succ n ih =>
    intro k hk
    by_cases hcond : graceMs + tickIntervalMs * k ≤ graceMs + readinessDeadlineMs
    · have hk30 : k ≤ 30 := by
        simp only [graceMs, tickIntervalMs, readinessDeadlineMs] at hcond
        omega
      rw [waitReadyFrom, dif_pos hcond, hp k]
      simp only [Bool.false_eq_true, if_false]
      have hrec := ih (k + 1) (by omega)
      refine ⟨hrec.1, hrec.2.1, ?_⟩
      intro t ht
      rcases List.mem_cons.mp ht with h1 | h1
      · exact ⟨k, le_refl k, h1⟩
      · obtain ⟨j, hj1, hj2⟩ := hrec.2.2 t h1
        exact ⟨j, by omega, hj2⟩
    · rw [waitReadyFrom, dif_neg hcond]
      exact ⟨rfl, rfl, fun t ht => absurd ht (List.not_mem_nil t)⟩

/-! ## C9 -/

/-- C9 counterexample: with a readiness probe that never succeeds the modelled
`WaitReady` returns failure 65000 ms after being called (the 60 s deadline
timer is created only after the unconditional 5 s grace sleep), which exceeds
the claimed bound of the configured deadline plus one polling interval
(60000 + 2000 = 62000 ms) measured from the call. -/
theorem waitReady_deadline_counterexample :
    (WaitReady (fun _ => false)).1 = false ∧
    ¬ ((WaitReady (fun _ => false)).2.1 ≤ readinessDeadlineMs + tickIntervalMs) := by
  have h := waitReadyFrom_allFail (fun _ => false) (fun _ => rfl) 30 1 (by omega)
  rw [WaitReady]
  refine ⟨h.1, ?_⟩
  rw [h.2.1]
  simp only [graceMs, readinessDeadlineMs, tickIntervalMs]
  omega

/-- C9 as amended: `WaitReady` performs the unconditional fixed grace delay
before any probe (every probe happens at a tick instant
`grace + k * interval`, `k ≥ 1`, so no earlier than grace plus one interval),
probes on the fixed tick interval, and on a probe that never succeeds it never
returns success and returns a timeout failure exactly at the deadline instant
`grace + deadline` — in particular no later than the grace period plus the
configured deadline plus one polling interval after being called (the claim's
bound of deadline + interval measured from the call omits the grace sleep,
after which the deadline timer starts). -/
theorem waitReady_timeout (probe : ℕ → Bool) (hp : ∀ k, probe k = false) :
    (WaitReady probe).1 = false ∧
    (WaitReady probe).2.1 = graceMs + readinessDeadlineMs ∧
    (WaitReady probe).2.1 ≤ graceMs + readinessDeadlineMs + tickIntervalMs ∧
    ∀ t ∈ (WaitReady probe).2.2,
      graceMs + tickIntervalMs ≤ t ∧ ∃ j, 1 ≤ j ∧ t = graceMs + tickIntervalMs * j := by
  have h := waitReadyFrom_allFail probe hp 30 1 (by omega)
  rw [WaitReady]
  refine ⟨h.1, h.2.1, by rw [h.2.1]; exact Nat.le_add_right _ _, ?_⟩
  intro t ht
  obtain ⟨j, hj1, hj2⟩ := h.2.2 t ht
  refine ⟨?_, j, hj1, hj2⟩
  rw [hj2]
  have hm : tickIntervalMs ≤ tickIntervalMs * j := by
    calc tickIntervalMs = tickIntervalMs * 1 := (Nat.mul_one _).symm
    _ ≤ tickIntervalMs * j := Nat.mul_le_mul_left _ hj1
  omega

/-- Witness for the amended C9: the never-succeeding probe reaches the
amended bound. -/
theorem waitReady_timeout_witness :
    (WaitReady (fun _ => false)).1 = false ∧
    (WaitReady (fun _ => false)).2.1 ≤ graceMs + readinessDeadlineMs + tickIntervalMs :=
  ⟨(waitReady_timeout (fun _ => false) (fun _ => rfl)).1,
   (waitReady_timeout (fun _ => false) (fun _ => rfl)).2.2.1⟩

end DbBench
